import Mathlib

/-!
Shallow embedding of `src/nas.cc` (microbench-nas): a benchmark comparing
sentinel-based and bitmap-based representations of missing values in a
dense `int32_t` array, via a family of summation kernels.

Modelling conventions:
* `T = int32_t` values are embedded as `Int`.  The generator draws values
  uniformly from `[0, 100]`, nulls are marked with
  `std::numeric_limits<int32_t>::min()`.  With one exception the kernels'
  arithmetic cannot leave the ranges of the C++ types on generator-produced
  data (every null-aware batch term is 0 or lies in `[0, 100]`, and the
  `int64_t` accumulator is nowhere near its bounds), so unbounded `Int` is
  exact there.  The exception is the 8-element `int` intermediate sum of
  `sum_ignore_nulls_batched`, which overflows `int32_t` whenever a batch
  holds two or more sentinels; it is modelled with explicit two's-complement
  wrap-around (`wrap32`).
* The accumulator `total` (`int64_t`) is embedded as `Int`.
* `uint8_t` bitmap bytes are embedded as `Nat`; well-formed datasets have
  every byte `< 256`.
* The PRNG (`std::mt19937` with `std::uniform_int_distribution<T>(0,100)`
  and `std::uniform_real_distribution<double>(0,1)`) is out of scope per
  the spec ("any seeded generator producing uniform draws suffices"), so
  the two seeded draw streams enter as parameters: `vdraw : Nat → Int`
  (the i-th value draw, contract `0 ≤ vdraw i ≤ 100`) and
  `rdraw : Nat → ℚ` (the i-th real draw, contract `0 ≤ rdraw i < 1`).
  The real draws are embedded as rationals; the only use the code makes
  of them is the comparison `dist(rng) < p`.
-/

/-- `constexpr T na_value = std::numeric_limits<T>::min()` with `T = int32_t`. -/
def na_value : Int := -(2 ^ 31)

/-- Mirror of `struct input_data`: element count `n`, the data array, and the
validity bitmap `namask` (one byte per 8 values; bit = 1 means valid). -/
structure input_data where
  n : Nat
  data : List Int
  namask : List Nat
deriving Repr, DecidableEq

/-- Mirror of `input_data::generate`: `data[i]` is the `i`-th draw of the seeded
uniform-integer stream `vdraw` (the stream's contract, draws in `[0,100]`,
is a hypothesis of the theorems that need it). -/
def generate (n : Nat) (vdraw : Nat → Int) : List Int :=
  (List.range n).map vdraw

/-- The mask update `namask[i/8] &= ~uint8_t(1 << (i & 7))` from
`input_data::fill_nas`: `~uint8_t(1 << k)` is the byte `255 ^^^ (1 <<< k)`. -/
def clearNaBit (m : List Nat) (i : Nat) : List Nat :=
  m.set (i / 8) (m.getD (i / 8) 0 &&& (255 ^^^ (1 <<< (i % 8))))

/-- Mirror of `input_data::fill_nas`: the mask starts as `(n+7)/8` bytes of
`0xFF`; then for each `i < n` in order, if the `i`-th seeded real draw is
`< p`, bit `i` of the mask is cleared and `data[i]` is overwritten with the
sentinel. Returns the updated data array and the mask. -/
def fill_nas (n : Nat) (dat : List Int) (p : ℚ) (rdraw : Nat → ℚ) :
    List Int × List Nat :=
  (List.range n).foldl
    (fun st i =>
      if rdraw i < p then (st.1.set i na_value, clearNaBit st.2 i) else st)
    (dat, List.replicate ((n + 7) / 8) 255)

/-- The dataset as produced in `main`: `input_data data(n); data.generate(seed);
data.fill_nas(p, seed);` with the two seeded streams passed explicitly. -/
def mk_input (n : Nat) (vdraw : Nat → Int) (p : ℚ) (rdraw : Nat → ℚ) :
    input_data :=
  let dm := fill_nas n (generate n vdraw) p rdraw
  ⟨n, dm.1, dm.2⟩

/-- `x[i]` (for well-formed datasets every kernel access is in range, so the
`getD` default never fires). -/
def xVal (d : input_data) (i : Nat) : Int := d.data.getD i 0

/-- `(valid_bitmap[i/8] >> (i & 7)) & 1` as the 0/1 integer the kernels
multiply by. -/
def validBit (d : input_data) (i : Nat) : Int :=
  ((d.namask.getD (i / 8) 0 >>> (i % 8)) &&& 1 : Nat)

/-- Bit `j` of a batch's validity byte: `(valid_byte >> j) & 1` as an integer. -/
def byteBit (b : Nat) (j : Nat) : Int := ((b >>> j) &&& 1 : Nat)

/-- `(x != NA)` after C++ bool-to-integer conversion: 1 when not the
sentinel, else 0. -/
def notNA (v : Int) : Int := if v ≠ na_value then 1 else 0

/-- `sum_ignore_nulls::run_once`: `for (i = 0; i < n; ++i) total += x[i];`. -/
def sum_ignore_nulls_once (d : input_data) (total : Int) : Int :=
  (List.range d.n).foldl (fun t i => t + xVal d i) total

/-- Two's-complement reduction to `int32_t`.  In
`sum_ignore_nulls_batched::run_once` the per-batch sum
`x[0] + x[1] + ... + x[7]` is computed in 32-bit `int` arithmetic before
being added to the `int64_t` accumulator; its overflow is undefined
behavior in C++, realized as two's-complement wrap-around on the hardware,
which this models.  Wrapping once after the whole 8-term sum equals
wrapping after every intermediate addition (`wrap32_add_left`), so a single
application captures the left-to-right `int` evaluation. -/
def wrap32 (v : Int) : Int := (v + 2 ^ 31) % 2 ^ 32 - 2 ^ 31

/-- `sum_ignore_nulls_batched::run_once`: `batches = n / 8` iterations adding
8 consecutive elements each (the pointer `x` advances by 8 per batch, so batch
`i` reads `x[8i .. 8i+7]`), then a cleanup loop over `[8·batches, n)`.  The
8-element batch sum is `int` arithmetic, hence the `wrap32`; the cleanup
adds each element directly into the `int64_t` total. -/
def sum_ignore_nulls_batched_once (d : input_data) (total : Int) : Int :=
  let batches := d.n / 8
  let t1 := (List.range batches).foldl
    (fun t i =>
      t + wrap32
        (xVal d (8*i) + xVal d (8*i+1) + xVal d (8*i+2) + xVal d (8*i+3) +
         xVal d (8*i+4) + xVal d (8*i+5) + xVal d (8*i+6) + xVal d (8*i+7)))
    total
  (List.range' (batches * 8) (d.n - batches * 8)).foldl
    (fun t i => t + xVal d i) t1

/-- `sum_sentinel_nulls_if::run_once`: `if (x[i] != NA) total += x[i];`. -/
def sum_sentinel_nulls_if_once (d : input_data) (total : Int) : Int :=
  (List.range d.n).foldl
    (fun t i => if xVal d i ≠ na_value then t + xVal d i else t) total

/-- `sum_sentinel_nulls_mul::run_once`: `total += x[i] * (x[i] != NA);`. -/
def sum_sentinel_nulls_mul_once (d : input_data) (total : Int) : Int :=
  (List.range d.n).foldl (fun t i => t + xVal d i * notNA (xVal d i)) total

/-- `sum_sentinel_nulls_batched::run_once`: `nbatches = n / 8` unrolled
iterations of the branchless sentinel body (batch `i` reads
`x[8i .. 8i+7]`), then a cleanup loop over `[8·nbatches, n)`. -/
def sum_sentinel_nulls_batched_once (d : input_data) (total : Int) : Int :=
  let nbatches := d.n / 8
  let t1 := (List.range nbatches).foldl
    (fun t i =>
      t + (xVal d (8*i) * notNA (xVal d (8*i)) +
           xVal d (8*i+1) * notNA (xVal d (8*i+1)) +
           xVal d (8*i+2) * notNA (xVal d (8*i+2)) +
           xVal d (8*i+3) * notNA (xVal d (8*i+3)) +
           xVal d (8*i+4) * notNA (xVal d (8*i+4)) +
           xVal d (8*i+5) * notNA (xVal d (8*i+5)) +
           xVal d (8*i+6) * notNA (xVal d (8*i+6)) +
           xVal d (8*i+7) * notNA (xVal d (8*i+7))))
    total
  (List.range' (nbatches * 8) (d.n - nbatches * 8)).foldl
    (fun t i => t + xVal d i * notNA (xVal d i)) t1

/-- `sum_bitmask_nulls::run_once`:
`total += x[i] * ((valid_bitmap[i/8] >> (i & 7)) & 1);`. -/
def sum_bitmask_nulls_once (d : input_data) (total : Int) : Int :=
  (List.range d.n).foldl (fun t i => t + xVal d i * validBit d i) total

/-- `sum_bitmask_nulls_batched::run_once`: per batch `i` read
`valid_byte = valid_bitmap[i]` and add the eight products
`x[8i+j] * ((valid_byte >> j) & 1)`; then the per-bit cleanup loop. -/
def sum_bitmask_nulls_batched_once (d : input_data) (total : Int) : Int :=
  let nbatches := d.n / 8
  let t1 := (List.range nbatches).foldl
    (fun t i =>
      let b := d.namask.getD i 0
      t + (xVal d (8*i) * byteBit b 0 +
           xVal d (8*i+1) * byteBit b 1 +
           xVal d (8*i+2) * byteBit b 2 +
           xVal d (8*i+3) * byteBit b 3 +
           xVal d (8*i+4) * byteBit b 4 +
           xVal d (8*i+5) * byteBit b 5 +
           xVal d (8*i+6) * byteBit b 6 +
           xVal d (8*i+7) * byteBit b 7))
    total
  (List.range' (nbatches * 8) (d.n - nbatches * 8)).foldl
    (fun t i => t + xVal d i * validBit d i) t1

/-- `sum_bitmask_nulls_shortcut::run_once`: like the batched bitmap kernel,
but when `valid_byte == 0xFF` the batch adds all 8 elements unconditionally. -/
def sum_bitmask_nulls_shortcut_once (d : input_data) (total : Int) : Int :=
  let nbatches := d.n / 8
  let t1 := (List.range nbatches).foldl
    (fun t i =>
      let b := d.namask.getD i 0
      if b = 255 then
        t + (xVal d (8*i) + xVal d (8*i+1) + xVal d (8*i+2) + xVal d (8*i+3) +
             xVal d (8*i+4) + xVal d (8*i+5) + xVal d (8*i+6) + xVal d (8*i+7))
      else
        t + (xVal d (8*i) * byteBit b 0 +
             xVal d (8*i+1) * byteBit b 1 +
             xVal d (8*i+2) * byteBit b 2 +
             xVal d (8*i+3) * byteBit b 3 +
             xVal d (8*i+4) * byteBit b 4 +
             xVal d (8*i+5) * byteBit b 5 +
             xVal d (8*i+6) * byteBit b 6 +
             xVal d (8*i+7) * byteBit b 7))
    total
  (List.range' (nbatches * 8) (d.n - nbatches * 8)).foldl
    (fun t i => t + xVal d i * validBit d i) t1

/-- The index set of one worker's strided loop
`for (i = ith; i < n; i += nth)` in `sum_sentinel_nulls_omp1::run_once`:
for `ith < nth` (OpenMP thread ids) these are exactly the `i < n` with
`i % nth = ith`, in increasing order. -/
def strideIndices (n ith nth : Nat) : List Nat :=
  (List.range n).filter (fun i => i % nth == ith)

/-- One worker's private `subtotal` in `sum_sentinel_nulls_omp1::run_once`:
the branchless sentinel sum over its stride, starting from 0. -/
def omp1_subtotal (d : input_data) (ith nth : Nat) : Int :=
  (strideIndices d.n ith nth).foldl
    (fun t i => t + xVal d i * notNA (xVal d i)) 0

/-- `sum_sentinel_nulls_omp1::run_once` with `nth` workers: each worker's
private subtotal is merged into `total` with `#pragma omp atomic update`.
The merge order is unspecified; integer addition makes every order agree
(proved for an arbitrary permutation in the C4 theorem), so worker order
is taken as the canonical representative. -/
def sum_sentinel_nulls_omp1_once (d : input_data) (nth : Nat) (total : Int) :
    Int :=
  ((List.range nth).map (fun ith => omp1_subtotal d ith nth)).foldl
    (fun a s => a + s) total

/-- `sum_sentinel_nulls_omp2::run_once`: an OpenMP
`parallel for reduction(+:total)` over the branchless sentinel body.
Reduction over integer `+` is partition- and merge-order-independent
(see `chunked_merge_eq_seq`), so the sequential order of iterations
defines the result. -/
def sum_sentinel_nulls_omp2_once (d : input_data) (total : Int) : Int :=
  (List.range d.n).foldl (fun t i => t + xVal d i * notNA (xVal d i)) total

/-- `sum_bitmask_nulls_omp2::run_once`: an OpenMP
`parallel for reduction(+:total)` over the unrolled bitmap batches
(`xx = x + (i << 3)` makes batch `i` read `x[8i .. 8i+7]`), followed by a
sequential per-bit cleanup loop outside the parallel region.  As above the
reduction is order-independent, so the sequential batch order defines the
result. -/
def sum_bitmask_nulls_omp2_once (d : input_data) (total : Int) : Int :=
  let nbatches := d.n / 8
  let t1 := (List.range nbatches).foldl
    (fun t i =>
      let b := d.namask.getD i 0
      t + (xVal d (8*i) * byteBit b 0 +
           xVal d (8*i+1) * byteBit b 1 +
           xVal d (8*i+2) * byteBit b 2 +
           xVal d (8*i+3) * byteBit b 3 +
           xVal d (8*i+4) * byteBit b 4 +
           xVal d (8*i+5) * byteBit b 5 +
           xVal d (8*i+6) * byteBit b 6 +
           xVal d (8*i+7) * byteBit b 7))
    total
  (List.range' (nbatches * 8) (d.n - nbatches * 8)).foldl
    (fun t i => t + xVal d i * validBit d i) t1

/-- `task::n_iterations`. -/
def n_iterations : Nat := 100

/-- The `task` constructor initializes `total(0)`. -/
def task_init_total : Int := 0

/-- `task::run`: invokes the kernel's `run_once` exactly `n_iterations` times
on the same dataset, accumulating into `total`; the per-iteration timing
statistics are purely observational and omitted. -/
def task_run (run_once : input_data → Int → Int) (d : input_data)
    (total : Int) : Int :=
  (List.range n_iterations).foldl (fun t _ => run_once d t) total

/-- The reference value of the benchmark's correctness invariant: the sum of
`data[i]` over the indices `i < n` whose value is not the sentinel (on
well-formed datasets this coincides with the bitmap's notion of validity). -/
def trueSum (d : input_data) : Int :=
  ((List.range d.n).map
    (fun i => if xVal d i = na_value then 0 else xVal d i)).sum

/-- Count of null-marked indices of a dataset. -/
def nullCount (d : input_data) : Nat :=
  ((List.range d.n).filter (fun i => xVal d i == na_value)).length

/-- Well-formedness of a dataset as established by `generate` + `fill_nas`:
lengths agree, mask bytes are `uint8_t` values, a cleared validity bit marks
exactly the sentinel-valued entries, and every valid entry lies in
`[0, 100]`. -/
def wf (d : input_data) : Prop :=
  d.data.length = d.n ∧
  d.namask.length = (d.n + 7) / 8 ∧
  (∀ b ∈ d.namask, b < 256) ∧
  (∀ i < d.n, (validBit d i = 0 ↔ xVal d i = na_value)) ∧
  (∀ i < d.n, xVal d i ≠ na_value → 0 ≤ xVal d i ∧ xVal d i ≤ 100)

instance (d : input_data) : Decidable (wf d) := by
  unfold wf; infer_instance

/-! ### Generic fold and range-sum infrastructure -/

theorem foldl_add_eq (f : Nat → Int) (l : List Nat) :
    ∀ t : Int, l.foldl (fun a i => a + f i) t = t + (l.map f).sum := by
  induction l with
  | nil => simp
  | cons i l ih => intro t; simp [ih, add_assoc]

theorem foldl_ite_add_eq (f : Nat → Int) (c : Nat → Prop) [DecidablePred c]
    (l : List Nat) :
    ∀ t : Int, l.foldl (fun a i => if c i then a + f i else a) t
      = t + (l.map (fun i => if c i then f i else 0)).sum := by
  induction l with
  | nil => simp
  | cons i l ih =>
    intro t
    by_cases h : c i <;> simp [h, ih, add_assoc]

theorem foldl_plus_eq (l : List Int) :
    ∀ t : Int, l.foldl (fun a s => a + s) t = t + l.sum := by
  induction l with
  | nil => simp
  | cons s l ih => intro t; simp [ih, add_assoc]

theorem foldl_body_congr (g1 g2 : Int → Nat → Int) (l : List Nat)
    (h : ∀ t i, g1 t i = g2 t i) : ∀ t, l.foldl g1 t = l.foldl g2 t := by
  induction l with
  | nil => intro t; rfl
  | cons a l ih => intro t; simp only [List.foldl_cons, h, ih]

theorem foldl_body_congr_mem (g1 g2 : Int → Nat → Int) :
    ∀ l : List Nat, (∀ (t : Int), ∀ i ∈ l, g1 t i = g2 t i) →
      ∀ t, l.foldl g1 t = l.foldl g2 t := by
  intro l
  induction l with
  | nil => intro _ t; rfl
  | cons a l ih =>
    intro h t
    rw [List.foldl_cons, h t a (List.mem_cons_self a l)]
    exact ih (fun t i hi => h t i (List.mem_cons_of_mem a hi)) _

/-- `wrap32` is the identity exactly on values representable in `int32_t`. -/
theorem wrap32_eq_self (v : Int) (h1 : -(2 ^ 31) ≤ v) (h2 : v < 2 ^ 31) :
    wrap32 v = v := by
  unfold wrap32
  omega

/-- Wrapping each intermediate `int` addition is the same as wrapping the
final sum, so a single `wrap32` models the C++ left-to-right evaluation. -/
theorem wrap32_add_left (a b : Int) : wrap32 (wrap32 a + b) = wrap32 (a + b) := by
  unfold wrap32
  omega

theorem sum_map_range_eight (f : Nat → Int) (s : Nat) :
    ((List.range' s 8).map f).sum
      = f s + f (s+1) + f (s+2) + f (s+3) + f (s+4) + f (s+5) + f (s+6)
        + f (s+7) := by
  simp [List.range', add_assoc]

theorem sum_map_range_split (f : Nat → Int) (n m : Nat) (h : m ≤ n) :
    ((List.range n).map f).sum
      = ((List.range m).map f).sum + ((List.range' m (n - m)).map f).sum := by
  have h1 : List.range' 0 m ++ List.range' (0 + 1 * m) (n - m)
      = List.range' 0 (n - m + m) := List.range'_append 0 m (n - m) 1
  have h2 : n - m + m = n := by omega
  have h3 : 0 + 1 * m = m := by omega
  rw [h2, h3] at h1
  rw [List.range_eq_range', ← h1, List.map_append, List.sum_append,
    ← List.range_eq_range']

theorem sum_map_batches (f : Nat → Int) (nb : Nat) :
    ((List.range nb).map
        (fun k => ((List.range' (8*k) 8).map f).sum)).sum
      = ((List.range (nb*8)).map f).sum := by
  induction nb with
  | zero => simp
  | succ nb ih =>
    rw [List.range_succ, List.map_append, List.sum_append]
    have h1 : List.range' 0 (nb*8) ++ List.range' (0 + 1 * (nb*8)) 8
        = List.range' 0 (8 + nb*8) := List.range'_append 0 (nb*8) 8 1
    have h2 : 0 + 1 * (nb*8) = 8*nb := by ring
    have h3 : 8 + nb*8 = (nb+1)*8 := by ring
    rw [h2, h3] at h1
    rw [List.range_eq_range' ((nb+1)*8), ← h1, List.map_append,
      List.sum_append, ← List.range_eq_range']
    simp [ih]

theorem batched_split (f : Nat → Int) (n : Nat) :
    ((List.range (n/8)).map
        (fun k => ((List.range' (8*k) 8).map f).sum)).sum
      + ((List.range' (n/8*8) (n - n/8*8)).map f).sum
      = ((List.range n).map f).sum := by
  rw [sum_map_batches, ← sum_map_range_split f n (n/8*8) (Nat.div_mul_le_self n 8)]

/-! ### `getD`/`set` helpers -/

theorem getD_set_self {α : Type} (l : List α) (k : Nat) (a e : α)
    (hk : k < l.length) : (l.set k a).getD k e = a := by
  simp [List.getD_eq_getElem?_getD, List.getElem?_set_self, hk]

theorem getD_set_ne {α : Type} (l : List α) (i k : Nat) (a e : α)
    (h : i ≠ k) : (l.set i a).getD k e = l.getD k e := by
  simp [List.getD_eq_getElem?_getD, List.getElem?_set_ne h]

theorem getD_default {α : Type} (l : List α) (j : Nat) (e : α)
    (h : l.length ≤ j) : l.getD j e = e := by
  rw [List.getD_eq_getElem?_getD, List.getElem?_eq_none (by omega),
    Option.getD_none]

theorem getD_mem_bound (m : List Nat) (hm : ∀ b ∈ m, b < 256) (j : Nat) :
    m.getD j 0 < 256 := by
  by_cases hj : j < m.length
  · rw [List.getD_eq_getElem m 0 hj]
    exact hm _ (List.getElem_mem hj)
  · rw [getD_default m j 0 (by omega)]
    norm_num

theorem byte_testBit_high (b : Nat) (hb : b < 256) (s : Nat) (hs : 8 ≤ s) :
    Nat.testBit b s = false := by
  apply Nat.testBit_eq_false_of_lt
  calc b < 256 := hb
    _ = 2^8 := by norm_num
    _ ≤ 2^s := Nat.pow_le_pow_right (by norm_num) hs

/-- `(b >> k) & 1` reads bit `k`: it is 1 when `testBit b k`, else 0. -/
theorem shift_and_one (b k : Nat) :
    (b >>> k) &&& 1 = if Nat.testBit b k then 1 else 0 := by
  have h1 : (b >>> k) &&& 1 = (b >>> k) % 2 := Nat.and_one_is_mod _
  have h2 : Nat.testBit b k = decide (b / 2^k % 2 = 1) := Nat.testBit_to_div_mod
  rw [h1, h2, Nat.shiftRight_eq_div_pow]
  rcases Nat.mod_two_eq_zero_or_one (b / 2^k) with h | h <;> simp [h]

/-! ### Characterization of `fill_nas` -/

/-- The per-index step of the `fill_nas` loop (the loop body of
`input_data::fill_nas`, named so the foldl can be reasoned about). -/
def naStep (p : ℚ) (rdraw : Nat → ℚ) (st : List Int × List Nat) (i : Nat) :
    List Int × List Nat :=
  if rdraw i < p then (st.1.set i na_value, clearNaBit st.2 i) else st

theorem fill_nas_eq_foldl (n : Nat) (dat : List Int) (p : ℚ)
    (rdraw : Nat → ℚ) :
    fill_nas n dat p rdraw
      = (List.range n).foldl (naStep p rdraw)
          (dat, List.replicate ((n + 7) / 8) 255) := rfl

theorem naStep_foldl_data_length (p : ℚ) (rdraw : Nat → ℚ) (js : List Nat) :
    ∀ st : List Int × List Nat,
      ((js.foldl (naStep p rdraw) st).1).length = st.1.length := by
  induction js with
  | nil => intro st; rfl
  | cons a js ih =>
    intro st
    rw [List.foldl_cons, ih]
    unfold naStep; split <;> simp

theorem naStep_foldl_mask_length (p : ℚ) (rdraw : Nat → ℚ) (js : List Nat) :
    ∀ st : List Int × List Nat,
      ((js.foldl (naStep p rdraw) st).2).length = st.2.length := by
  induction js with
  | nil => intro st; rfl
  | cons a js ih =>
    intro st
    rw [List.foldl_cons, ih]
    unfold naStep clearNaBit; split <;> simp

theorem clearNaBit_bytes_lt (m : List Nat) (hm : ∀ b ∈ m, b < 256) (i : Nat) :
    ∀ b ∈ clearNaBit m i, b < 256 := by
  intro b hb
  rcases List.mem_or_eq_of_mem_set hb with h | h
  · exact hm b h
  · have hle : m.getD (i/8) 0 &&& (255 ^^^ 1 <<< (i % 8))
        ≤ 255 ^^^ 1 <<< (i % 8) := Nat.and_le_right
    have h2 : (255 : Nat) ^^^ 1 <<< (i % 8) < 256 := by
      have : (1:Nat) <<< (i % 8) = 2 ^ (i % 8) := by
        rw [Nat.shiftLeft_eq, one_mul]
      rw [this]
      have h3 : (2:Nat) ^ (i % 8) < 2 ^ 8 :=
        Nat.pow_lt_pow_right (by norm_num) (Nat.mod_lt _ (by norm_num))
      have h4 : (255 : Nat) < 2^8 := by norm_num
      have := Nat.xor_lt_two_pow h4 h3
      omega
    omega

theorem naStep_foldl_bytes_lt (p : ℚ) (rdraw : Nat → ℚ) (js : List Nat) :
    ∀ st : List Int × List Nat, (∀ b ∈ st.2, b < 256) →
      ∀ b ∈ (js.foldl (naStep p rdraw) st).2, b < 256 := by
  induction js with
  | nil => intro st hst; exact hst
  | cons a js ih =>
    intro st hst
    rw [List.foldl_cons]
    apply ih
    unfold naStep; split
    · exact clearNaBit_bytes_lt st.2 hst a
    · exact hst

theorem naStep_foldl_data_getD (p : ℚ) (rdraw : Nat → ℚ) (js : List Nat) :
    ∀ (st : List Int × List Nat) (k : Nat), k < st.1.length →
      ((js.foldl (naStep p rdraw) st).1).getD k 0
        = if k ∈ js ∧ rdraw k < p then na_value else st.1.getD k 0 := by
  induction js with
  | nil => intro st k _; simp
  | cons a js ih =>
    intro st k hk
    rw [List.foldl_cons]
    have hlen : ((naStep p rdraw st a).1).length = st.1.length := by
      unfold naStep; split <;> simp
    rw [ih (naStep p rdraw st a) k (by rw [hlen]; exact hk)]
    unfold naStep
    by_cases ha : rdraw a < p
    · simp only [if_pos ha]
      by_cases hk2 : k ∈ js ∧ rdraw k < p
      · have hmem : k ∈ a :: js ∧ rdraw k < p :=
          ⟨List.mem_cons_of_mem a hk2.1, hk2.2⟩
        simp [hk2, hmem]
      · simp only [if_neg hk2]
        by_cases hka : k = a
        · subst hka
          rw [getD_set_self st.1 k na_value 0 hk]
          have hmem : k ∈ k :: js ∧ rdraw k < p := ⟨List.mem_cons_self k js, ha⟩
          simp [hmem]
        · rw [getD_set_ne st.1 a k na_value 0 (fun h => hka h.symm)]
          have hnot : ¬(k ∈ a :: js ∧ rdraw k < p) := by
            rintro ⟨hmem, hrk⟩
            rcases List.mem_cons.mp hmem with h | h
            · exact hka h
            · exact hk2 ⟨h, hrk⟩
          rw [if_neg hnot]
    · simp only [if_neg ha]
      by_cases hk2 : k ∈ js ∧ rdraw k < p
      · have hmem : k ∈ a :: js ∧ rdraw k < p :=
          ⟨List.mem_cons_of_mem a hk2.1, hk2.2⟩
        simp [hk2, hmem]
      · have hnot : ¬(k ∈ a :: js ∧ rdraw k < p) := by
          rintro ⟨hmem, hrk⟩
          rcases List.mem_cons.mp hmem with h | h
          · subst h; exact ha hrk
          · exact hk2 ⟨h, hrk⟩
        rw [if_neg hk2, if_neg hnot]

theorem clearNaBit_getD_testBit (m : List Nat) (hm : ∀ b ∈ m, b < 256)
    (i j s : Nat) :
    Nat.testBit ((clearNaBit m i).getD j 0) s
      = (Nat.testBit (m.getD j 0) s
         && !(decide (i / 8 = j) && decide (i % 8 = s))) := by
  unfold clearNaBit
  by_cases hj : i / 8 = j
  · subst hj
    by_cases hlen : i / 8 < m.length
    · rw [getD_set_self _ _ _ _ hlen]
      rw [Nat.testBit_and, Nat.testBit_xor]
      have h255 : Nat.testBit 255 s = decide (s < 8) := by
        have := Nat.testBit_two_pow_sub_one 8 s
        norm_num at this
        exact this
      have hpow : (1 : Nat) <<< (i % 8) = 2 ^ (i % 8) := by
        rw [Nat.shiftLeft_eq, one_mul]
      rw [hpow, Nat.testBit_two_pow, h255]
      by_cases hs : s < 8
      · simp only [decide_eq_true_eq, hs, decide_True]
        cases h : Nat.testBit (m.getD (i/8) 0) s <;>
          cases h2 : decide (i % 8 = s) <;> simp [h2]
      · have hb : m.getD (i/8) 0 < 256 := getD_mem_bound m hm _
        rw [byte_testBit_high _ hb s (by omega)]
        have : ¬ (i % 8 = s) := by omega
        simp [hs, this]
    · rw [List.set_eq_of_length_le (by omega)]
      rw [getD_default m _ 0 (by omega)]
      simp
  · rw [getD_set_ne _ _ _ _ _ hj]
    simp [hj]

theorem naStep_foldl_mask_testBit (p : ℚ) (rdraw : Nat → ℚ) (js : List Nat) :
    ∀ st : List Int × List Nat, (∀ b ∈ st.2, b < 256) → ∀ j s : Nat,
      Nat.testBit ((js.foldl (naStep p rdraw) st).2.getD j 0) s
        = (Nat.testBit (st.2.getD j 0) s
           && !(js.any (fun i =>
                decide (rdraw i < p) && decide (i / 8 = j)
                  && decide (i % 8 = s)))) := by
  induction js with
  | nil => intro st _ j s; simp
  | cons a js ih =>
    intro st hst j s
    rw [List.foldl_cons]
    have hst' : ∀ b ∈ (naStep p rdraw st a).2, b < 256 := by
      unfold naStep; split
      · exact clearNaBit_bytes_lt st.2 hst a
      · exact hst
    rw [ih _ hst' j s]
    unfold naStep
    by_cases ha : rdraw a < p
    · simp only [if_pos ha]
      rw [clearNaBit_getD_testBit st.2 hst a j s]
      simp only [List.any_cons, ha, decide_True, Bool.true_and, Bool.not_or,
        Bool.and_assoc]
    · simp only [if_neg ha]
      have : decide (rdraw a < p) = false := decide_eq_false ha
      simp [List.any_cons, this]

/-! ### The dataset produced by `generate` + `fill_nas` -/

theorem mk_input_n (n : Nat) (v : Nat → Int) (p : ℚ) (r : Nat → ℚ) :
    (mk_input n v p r).n = n := rfl

theorem mk_input_data_eq (n : Nat) (v : Nat → Int) (p : ℚ) (r : Nat → ℚ) :
    (mk_input n v p r).data
      = ((List.range n).foldl (naStep p r)
          (generate n v, List.replicate ((n + 7) / 8) 255)).1 := rfl

theorem mk_input_namask_eq (n : Nat) (v : Nat → Int) (p : ℚ) (r : Nat → ℚ) :
    (mk_input n v p r).namask
      = ((List.range n).foldl (naStep p r)
          (generate n v, List.replicate ((n + 7) / 8) 255)).2 := rfl

theorem mk_input_data_length (n : Nat) (v : Nat → Int) (p : ℚ) (r : Nat → ℚ) :
    (mk_input n v p r).data.length = n := by
  rw [mk_input_data_eq, naStep_foldl_data_length]
  simp [generate]

theorem mk_input_namask_length (n : Nat) (v : Nat → Int) (p : ℚ)
    (r : Nat → ℚ) : (mk_input n v p r).namask.length = (n + 7) / 8 := by
  rw [mk_input_namask_eq, naStep_foldl_mask_length]
  simp

theorem mk_input_bytes_lt (n : Nat) (v : Nat → Int) (p : ℚ) (r : Nat → ℚ) :
    ∀ b ∈ (mk_input n v p r).namask, b < 256 := by
  rw [mk_input_namask_eq]
  apply naStep_foldl_bytes_lt
  intro b hb
  rw [List.eq_of_mem_replicate hb]
  norm_num

theorem mk_input_xVal (n : Nat) (v : Nat → Int) (p : ℚ) (r : Nat → ℚ)
    (i : Nat) (hi : i < n) :
    xVal (mk_input n v p r) i = if r i < p then na_value else v i := by
  unfold xVal
  rw [mk_input_data_eq,
    naStep_foldl_data_getD p r (List.range n) _ i (by simp [generate, hi])]
  have hmem : i ∈ List.range n := List.mem_range.mpr hi
  have hinit : (generate n v).getD i 0 = v i := by
    unfold generate
    rw [List.getD_eq_getElem _ _ (by simp [hi])]
    simp
  by_cases hri : r i < p
  · rw [if_pos ⟨hmem, hri⟩, if_pos hri]
  · rw [if_neg (fun h => hri h.2), if_neg hri, hinit]

theorem mk_input_validBit (n : Nat) (v : Nat → Int) (p : ℚ) (r : Nat → ℚ)
    (i : Nat) (hi : i < n) :
    validBit (mk_input n v p r) i = if r i < p then 0 else 1 := by
  unfold validBit
  rw [mk_input_namask_eq, shift_and_one,
    naStep_foldl_mask_testBit p r (List.range n) _
      (by intro b hb; rw [List.eq_of_mem_replicate hb]; norm_num)
      (i/8) (i%8)]
  have hj : i / 8 < (n + 7) / 8 := by omega
  have hinit : (List.replicate ((n+7)/8) (255:Nat)).getD (i/8) 0 = 255 := by
    rw [List.getD_eq_getElem _ _ (by simpa using hj)]
    simp
  rw [hinit]
  have h255 : Nat.testBit 255 (i % 8) = true := by
    have h := Nat.testBit_two_pow_sub_one 8 (i % 8)
    norm_num at h
    rw [h]
    simpa using Nat.mod_lt i (by norm_num)
  rw [h255, Bool.true_and]
  by_cases hri : r i < p
  · have hany : ((List.range n).any (fun i' =>
        decide (r i' < p) && decide (i' / 8 = i / 8)
          && decide (i' % 8 = i % 8))) = true :=
      List.any_eq_true.mpr ⟨i, List.mem_range.mpr hi, by simp [hri]⟩
    rw [hany]
    simp [hri]
  · have hany : ((List.range n).any (fun i' =>
        decide (r i' < p) && decide (i' / 8 = i / 8)
          && decide (i' % 8 = i % 8))) = false := by
      rw [Bool.eq_false_iff]
      intro hcontra
      rw [List.any_eq_true] at hcontra
      obtain ⟨i', _, hp⟩ := hcontra
      simp only [Bool.and_eq_true, decide_eq_true_eq] at hp
      obtain ⟨⟨hr', hdiv⟩, hmod⟩ := hp
      have heq : i' = i := by omega
      subst heq
      exact hri hr'
    rw [hany]
    simp [hri]

theorem wf_mk_input (n : Nat) (v : Nat → Int) (p : ℚ) (r : Nat → ℚ)
    (hv : ∀ i, 0 ≤ v i ∧ v i ≤ 100) : wf (mk_input n v p r) := by
  have hna_neg : na_value < 0 := by norm_num [na_value]
  refine ⟨mk_input_data_length n v p r, mk_input_namask_length n v p r,
    mk_input_bytes_lt n v p r, ?_, ?_⟩
  · intro i hi
    rw [mk_input_validBit n v p r i hi, mk_input_xVal n v p r i hi]
    by_cases hri : r i < p
    · simp [hri]
    · simp only [if_neg hri]
      refine iff_of_false one_ne_zero (fun h => ?_)
      have h0 := (hv i).1
      rw [h] at h0
      omega
  · intro i hi hne
    rw [mk_input_xVal n v p r i hi] at hne ⊢
    by_cases hri : r i < p
    · rw [if_pos hri] at hne
      exact absurd rfl hne
    · rw [if_neg hri]
      exact hv i

/-! ### Kernel evaluation lemmas -/

theorem sBody_eq (v : Int) : v * notNA v = if v = na_value then 0 else v := by
  unfold notNA
  by_cases h : v = na_value <;> simp [h]

theorem sum_ignore_nulls_once_eq (d : input_data) (t : Int) :
    sum_ignore_nulls_once d t
      = t + ((List.range d.n).map (fun i => xVal d i)).sum := by
  unfold sum_ignore_nulls_once
  exact foldl_add_eq _ _ t

/-- When every batch's 8-element sum fits in `int32_t` (as on generated data
whenever no batch holds two or more sentinels), the wrap is the identity and
the batched unconditional kernel equals the naive one. -/
theorem sum_ignore_nulls_batched_once_eq (d : input_data) (t : Int)
    (hfit : ∀ k < d.n / 8,
      -(2 ^ 31) ≤ xVal d (8*k) + xVal d (8*k+1) + xVal d (8*k+2)
          + xVal d (8*k+3) + xVal d (8*k+4) + xVal d (8*k+5) + xVal d (8*k+6)
          + xVal d (8*k+7) ∧
        xVal d (8*k) + xVal d (8*k+1) + xVal d (8*k+2) + xVal d (8*k+3)
          + xVal d (8*k+4) + xVal d (8*k+5) + xVal d (8*k+6) + xVal d (8*k+7)
          < 2 ^ 31) :
    sum_ignore_nulls_batched_once d t = sum_ignore_nulls_once d t := by
  simp only [sum_ignore_nulls_batched_once, sum_ignore_nulls_once]
  have hmid := foldl_body_congr_mem
    (fun t i =>
      t + wrap32
        (xVal d (8*i) + xVal d (8*i+1) + xVal d (8*i+2) + xVal d (8*i+3) +
         xVal d (8*i+4) + xVal d (8*i+5) + xVal d (8*i+6) + xVal d (8*i+7)))
    (fun t i =>
      t + (xVal d (8*i) + xVal d (8*i+1) + xVal d (8*i+2) + xVal d (8*i+3) +
           xVal d (8*i+4) + xVal d (8*i+5) + xVal d (8*i+6) + xVal d (8*i+7)))
    (List.range (d.n / 8))
    (fun tt k hk => by
      simp only [wrap32_eq_self _ (hfit k (List.mem_range.mp hk)).1
        (hfit k (List.mem_range.mp hk)).2])
    t
  rw [hmid]
  rw [foldl_add_eq, foldl_add_eq, foldl_add_eq]
  have hb : (fun k => xVal d (8*k) + xVal d (8*k+1) + xVal d (8*k+2)
        + xVal d (8*k+3) + xVal d (8*k+4) + xVal d (8*k+5) + xVal d (8*k+6)
        + xVal d (8*k+7))
      = (fun k => ((List.range' (8*k) 8).map (fun i => xVal d i)).sum) :=
    funext (fun k => (sum_map_range_eight (fun i => xVal d i) (8*k)).symm)
  rw [hb, add_assoc, batched_split (fun i => xVal d i) d.n]

theorem sum_sentinel_nulls_mul_once_eq (d : input_data) (t : Int) :
    sum_sentinel_nulls_mul_once d t = t + trueSum d := by
  unfold sum_sentinel_nulls_mul_once trueSum
  rw [foldl_add_eq]
  have hb : (fun i => xVal d i * notNA (xVal d i))
      = (fun i => if xVal d i = na_value then 0 else xVal d i) :=
    funext (fun i => sBody_eq (xVal d i))
  rw [hb]

theorem sum_sentinel_nulls_if_once_eq (d : input_data) (t : Int) :
    sum_sentinel_nulls_if_once d t = t + trueSum d := by
  unfold sum_sentinel_nulls_if_once trueSum
  rw [foldl_ite_add_eq (fun i => xVal d i) (fun i => xVal d i ≠ na_value)]
  have hb : (fun i => if xVal d i ≠ na_value then xVal d i else 0)
      = (fun i => if xVal d i = na_value then 0 else xVal d i) :=
    funext (fun i => by by_cases h : xVal d i = na_value <;> simp [h])
  rw [hb]

theorem sum_sentinel_nulls_batched_once_eq (d : input_data) (t : Int) :
    sum_sentinel_nulls_batched_once d t = sum_sentinel_nulls_mul_once d t := by
  simp only [sum_sentinel_nulls_batched_once, sum_sentinel_nulls_mul_once]
  rw [foldl_add_eq, foldl_add_eq, foldl_add_eq]
  have hb : (fun k => xVal d (8*k) * notNA (xVal d (8*k)) +
        xVal d (8*k+1) * notNA (xVal d (8*k+1)) +
        xVal d (8*k+2) * notNA (xVal d (8*k+2)) +
        xVal d (8*k+3) * notNA (xVal d (8*k+3)) +
        xVal d (8*k+4) * notNA (xVal d (8*k+4)) +
        xVal d (8*k+5) * notNA (xVal d (8*k+5)) +
        xVal d (8*k+6) * notNA (xVal d (8*k+6)) +
        xVal d (8*k+7) * notNA (xVal d (8*k+7)))
      = (fun k => ((List.range' (8*k) 8).map
          (fun i => xVal d i * notNA (xVal d i))).sum) :=
    funext (fun k =>
      (sum_map_range_eight (fun i => xVal d i * notNA (xVal d i)) (8*k)).symm)
  rw [hb, add_assoc, batched_split (fun i => xVal d i * notNA (xVal d i)) d.n]

theorem sum_bitmask_nulls_once_eq (d : input_data) (t : Int) :
    sum_bitmask_nulls_once d t
      = t + ((List.range d.n).map (fun i => xVal d i * validBit d i)).sum := by
  unfold sum_bitmask_nulls_once
  exact foldl_add_eq _ _ t

/-- In a batch, bit `j < 8` of byte `k` is the validity bit of element
`8k + j`. -/
theorem validBit_batch (d : input_data) (k j : Nat) (hj : j < 8) :
    byteBit (d.namask.getD k 0) j = validBit d (8*k+j) := by
  unfold validBit byteBit
  have h1 : (8*k+j) / 8 = k := by omega
  have h2 : (8*k+j) % 8 = j := by omega
  rw [h1, h2]

theorem sum_bitmask_nulls_batched_once_eq (d : input_data) (t : Int) :
    sum_bitmask_nulls_batched_once d t = sum_bitmask_nulls_once d t := by
  simp only [sum_bitmask_nulls_batched_once, sum_bitmask_nulls_once]
  rw [foldl_add_eq, foldl_add_eq, foldl_add_eq]
  have hb : (fun k =>
        xVal d (8*k) * byteBit (d.namask.getD k 0) 0 +
        xVal d (8*k+1) * byteBit (d.namask.getD k 0) 1 +
        xVal d (8*k+2) * byteBit (d.namask.getD k 0) 2 +
        xVal d (8*k+3) * byteBit (d.namask.getD k 0) 3 +
        xVal d (8*k+4) * byteBit (d.namask.getD k 0) 4 +
        xVal d (8*k+5) * byteBit (d.namask.getD k 0) 5 +
        xVal d (8*k+6) * byteBit (d.namask.getD k 0) 6 +
        xVal d (8*k+7) * byteBit (d.namask.getD k 0) 7)
      = (fun k => ((List.range' (8*k) 8).map
          (fun i => xVal d i * validBit d i)).sum) := by
    funext k
    rw [sum_map_range_eight (fun i => xVal d i * validBit d i) (8*k)]
    rw [validBit_batch d k 0 (by norm_num), validBit_batch d k 1 (by norm_num),
      validBit_batch d k 2 (by norm_num), validBit_batch d k 3 (by norm_num),
      validBit_batch d k 4 (by norm_num), validBit_batch d k 5 (by norm_num),
      validBit_batch d k 6 (by norm_num), validBit_batch d k 7 (by norm_num)]
    norm_num
  rw [hb, add_assoc, batched_split (fun i => xVal d i * validBit d i) d.n]

theorem sum_bitmask_nulls_shortcut_once_eq (d : input_data) (t : Int) :
    sum_bitmask_nulls_shortcut_once d t = sum_bitmask_nulls_batched_once d t := by
  simp only [sum_bitmask_nulls_shortcut_once, sum_bitmask_nulls_batched_once]
  congr 1
  apply foldl_body_congr
  intro tt k
  by_cases hb : d.namask.getD k 0 = 255
  · rw [if_pos hb, hb]
    have h0 : byteBit 255 0 = 1 := by decide
    have h1 : byteBit 255 1 = 1 := by decide
    have h2 : byteBit 255 2 = 1 := by decide
    have h3 : byteBit 255 3 = 1 := by decide
    have h4 : byteBit 255 4 = 1 := by decide
    have h5 : byteBit 255 5 = 1 := by decide
    have h6 : byteBit 255 6 = 1 := by decide
    have h7 : byteBit 255 7 = 1 := by decide
    rw [h0, h1, h2, h3, h4, h5, h6, h7]
    simp
  · rw [if_neg hb]

theorem wf_bBody_eq (d : input_data) (hd : wf d) (i : Nat) (hi : i < d.n) :
    xVal d i * validBit d i = if xVal d i = na_value then 0 else xVal d i := by
  obtain ⟨-, -, -, hbit, -⟩ := hd
  by_cases h : xVal d i = na_value
  · rw [(hbit i hi).mpr h, mul_zero, if_pos h]
  · rw [if_neg h]
    have h0 : validBit d i ≠ 0 := fun hh => h ((hbit i hi).mp hh)
    have h1 : validBit d i = 1 := by
      unfold validBit at h0 ⊢
      have hle : (d.namask.getD (i/8) 0 >>> (i%8)) &&& 1 ≤ 1 := Nat.and_le_right
      have heq : (d.namask.getD (i/8) 0 >>> (i%8)) &&& 1 = 1 := by
        by_cases hz : (d.namask.getD (i/8) 0 >>> (i%8)) &&& 1 = 0
        · exfalso; apply h0; rw [hz]; rfl
        · omega
      rw [heq]; rfl
    rw [h1, mul_one]

theorem sum_bitmask_nulls_once_trueSum (d : input_data) (hd : wf d) (t : Int) :
    sum_bitmask_nulls_once d t = t + trueSum d := by
  rw [sum_bitmask_nulls_once_eq]
  unfold trueSum
  congr 1
  exact congrArg List.sum (List.map_congr_left
    (fun i hi => wf_bBody_eq d hd i (List.mem_range.mp hi)))

/-! ### Round-robin partition of the index range (omp1) -/

theorem sum_map_add_distrib (A B : Nat → Int) (l : List Nat) :
    (l.map (fun x => A x + B x)).sum = (l.map A).sum + (l.map B).sum := by
  induction l with
  | nil => simp
  | cons a l ih => simp only [List.map_cons, List.sum_cons, ih]; ring

theorem sum_map_ite_single (c : Int) (r : Nat) (k : Nat) (hr : r < k) :
    ((List.range k).map (fun ith => if r = ith then c else 0)).sum = c := by
  induction k with
  | zero => omega
  | succ k ih =>
    rw [List.range_succ, List.map_append, List.sum_append]
    by_cases hrk : r = k
    · subst hrk
      have hz : ((List.range r).map
          (fun ith => if r = ith then c else 0)).sum = 0 := by
        apply List.sum_eq_zero
        intro x hx
        rw [List.mem_map] at hx
        obtain ⟨ith, hith, hxe⟩ := hx
        have hne : r ≠ ith := by rw [List.mem_range] at hith; omega
        rw [← hxe, if_neg hne]
      rw [hz]
      simp
    · rw [ih (by omega)]
      simp [hrk]

theorem stride_partition (f : Nat → Int) (nth : Nat) (h1 : 1 ≤ nth) (n : Nat) :
    ((List.range nth).map (fun ith =>
        (((List.range n).filter (fun i => i % nth == ith)).map f).sum)).sum
      = ((List.range n).map f).sum := by
  induction n with
  | zero => simp
  | succ n ih =>
    have hstep : (fun ith =>
          (((List.range (n+1)).filter (fun i => i % nth == ith)).map f).sum)
        = (fun ith =>
          (((List.range n).filter (fun i => i % nth == ith)).map f).sum
            + (if n % nth = ith then f n else 0)) := by
      funext ith
      rw [List.range_succ, List.filter_append, List.map_append, List.sum_append]
      congr 1
      by_cases hp : n % nth = ith
      · have hb : (n % nth == ith) = true := beq_iff_eq.mpr hp
        simp [List.filter, hb, hp]
      · have hb : (n % nth == ith) = false := beq_eq_false_iff_ne.mpr hp
        simp [List.filter, hb, hp]
    rw [hstep, sum_map_add_distrib,
      sum_map_ite_single (f n) (n % nth) nth (Nat.mod_lt n (by omega)), ih]
    rw [List.range_succ, List.map_append, List.sum_append]
    simp

theorem omp1_subtotal_eq (d : input_data) (ith nth : Nat) :
    omp1_subtotal d ith nth
      = (((List.range d.n).filter (fun i => i % nth == ith)).map
          (fun i => xVal d i * notNA (xVal d i))).sum := by
  unfold omp1_subtotal strideIndices
  rw [foldl_add_eq]
  simp

theorem sum_sentinel_nulls_omp1_once_eq (d : input_data) (nth : Nat)
    (h1 : 1 ≤ nth) (t : Int) :
    sum_sentinel_nulls_omp1_once d nth t = sum_sentinel_nulls_mul_once d t := by
  unfold sum_sentinel_nulls_omp1_once sum_sentinel_nulls_mul_once
  rw [foldl_plus_eq, foldl_add_eq]
  congr 1
  have hmap : (List.range nth).map (fun ith => omp1_subtotal d ith nth)
      = (List.range nth).map (fun ith =>
          (((List.range d.n).filter (fun i => i % nth == ith)).map
            (fun i => xVal d i * notNA (xVal d i))).sum) :=
    List.map_congr_left (fun ith _ => omp1_subtotal_eq d ith nth)
  rw [hmap, stride_partition _ nth h1 d.n]

theorem sum_sentinel_nulls_omp2_once_eq (d : input_data) (t : Int) :
    sum_sentinel_nulls_omp2_once d t = sum_sentinel_nulls_mul_once d t := rfl

theorem sum_bitmask_nulls_omp2_once_eq (d : input_data) (t : Int) :
    sum_bitmask_nulls_omp2_once d t = sum_bitmask_nulls_batched_once d t := rfl

/-- Partition/merge-order independence of an integer `+` reduction: for any
partition of `[0, n)` into chunks and any order `l` of the per-chunk partial
sums, folding the partial sums into `t` gives the sequential result.  This
is what makes the canonical (sequential) models of the two OpenMP
`reduction(+:total)` kernels faithful. -/
theorem chunked_merge_eq_seq (f : Nat → Int) (n : Nat) (t : Int)
    (chunks : List (List Nat)) (l : List Int)
    (hc : chunks.flatten.Perm (List.range n))
    (hl : l.Perm (chunks.map (fun c => (c.map f).sum))) :
    l.foldl (fun a s => a + s) t = t + ((List.range n).map f).sum := by
  rw [foldl_plus_eq, hl.sum_eq]
  congr 1
  have h1 : (chunks.map (fun c => (c.map f).sum)).sum
      = ((chunks.flatten).map f).sum := by
    rw [List.map_flatten f chunks, List.sum_flatten, List.map_map]
    rfl
  rw [h1, (hc.map f).sum_eq]

/-! ### The timing harness -/

theorem foldl_const_add (S : Int) (l : List Nat) :
    ∀ t : Int, l.foldl (fun a _ => a + S) t = t + (l.length : Int) * S := by
  induction l with
  | nil => simp
  | cons a l ih =>
    intro t
    simp only [List.foldl_cons, ih, List.length_cons]
    push_cast
    ring

theorem task_run_affine (step : input_data → Int → Int) (d : input_data)
    (S : Int) (hstep : ∀ t, step d t = t + S) (total : Int) :
    task_run step d total = total + (n_iterations : Int) * S := by
  unfold task_run
  have hfn : (fun (t : Int) (_ : Nat) => step d t)
      = (fun (t : Int) (_ : Nat) => t + S) :=
    funext (fun t => funext (fun _ => hstep t))
  rw [hfn, foldl_const_add]
  simp [n_iterations]

/-! ### Degenerate probabilities -/

theorem naStep_foldl_id (p : ℚ) (r : Nat → ℚ) (js : List Nat)
    (hno : ∀ i ∈ js, ¬ r i < p) :
    ∀ st : List Int × List Nat, js.foldl (naStep p r) st = st := by
  induction js with
  | nil => intro st; rfl
  | cons a js ih =>
    intro st
    rw [List.foldl_cons]
    have hstep : naStep p r st a = st := by
      unfold naStep
      rw [if_neg (hno a (List.mem_cons_self a js))]
    rw [hstep]
    exact ih (fun i hi => hno i (List.mem_cons_of_mem a hi)) st

theorem fill_nas_p_zero (n : Nat) (dat : List Int) (r : Nat → ℚ)
    (hr : ∀ i, 0 ≤ r i) :
    fill_nas n dat 0 r = (dat, List.replicate ((n + 7) / 8) 255) := by
  rw [fill_nas_eq_foldl]
  exact naStep_foldl_id 0 r (List.range n)
    (fun i _ => not_lt.mpr (hr i)) _

theorem mk_input_p_zero (n : Nat) (v : Nat → Int) (r : Nat → ℚ)
    (hr : ∀ i, 0 ≤ r i) :
    mk_input n v 0 r = ⟨n, generate n v, List.replicate ((n + 7) / 8) 255⟩ := by
  unfold mk_input
  rw [fill_nas_p_zero n _ r hr]

/-- Shared core of the cross-kernel agreement property: on any well-formed
dataset, starting from a zero accumulator, every null-aware kernel computes
the true sum of the non-null values. -/
theorem null_aware_kernels_trueSum (d : input_data) (hd : wf d) (nth : Nat)
    (h1 : 1 ≤ nth) :
    sum_sentinel_nulls_if_once d 0 = trueSum d ∧
    sum_sentinel_nulls_mul_once d 0 = trueSum d ∧
    sum_sentinel_nulls_batched_once d 0 = trueSum d ∧
    sum_bitmask_nulls_once d 0 = trueSum d ∧
    sum_bitmask_nulls_batched_once d 0 = trueSum d ∧
    sum_bitmask_nulls_shortcut_once d 0 = trueSum d ∧
    sum_sentinel_nulls_omp1_once d nth 0 = trueSum d ∧
    sum_sentinel_nulls_omp2_once d 0 = trueSum d ∧
    sum_bitmask_nulls_omp2_once d 0 = trueSum d := by
  have hmul : sum_sentinel_nulls_mul_once d 0 = trueSum d := by
    rw [sum_sentinel_nulls_mul_once_eq, zero_add]
  have hbit : sum_bitmask_nulls_once d 0 = trueSum d := by
    rw [sum_bitmask_nulls_once_trueSum d hd, zero_add]
  have hbb : sum_bitmask_nulls_batched_once d 0 = trueSum d := by
    rw [sum_bitmask_nulls_batched_once_eq, hbit]
  refine ⟨?_, hmul, ?_, hbit, hbb, ?_, ?_, ?_, ?_⟩
  · rw [sum_sentinel_nulls_if_once_eq, zero_add]
  · rw [sum_sentinel_nulls_batched_once_eq, hmul]
  · rw [sum_bitmask_nulls_shortcut_once_eq, hbb]
  · rw [sum_sentinel_nulls_omp1_once_eq d nth h1, hmul]
  · rw [sum_sentinel_nulls_omp2_once_eq, hmul]
  · rw [sum_bitmask_nulls_omp2_once_eq, hbb]

/-- With `p = 0`, the dataset has no sentinel values, so the true sum is the
plain sum over all elements. -/
theorem trueSum_p_zero (n : Nat) (v : Nat → Int) (r : Nat → ℚ)
    (hv : ∀ i, 0 ≤ v i ∧ v i ≤ 100) (hr : ∀ i, 0 ≤ r i) :
    trueSum (mk_input n v 0 r)
      = ((List.range n).map (fun i => xVal (mk_input n v 0 r) i)).sum := by
  unfold trueSum
  rw [mk_input_n]
  apply congrArg List.sum
  apply List.map_congr_left
  intro i hi
  have hx : xVal (mk_input n v 0 r) i = v i := by
    rw [mk_input_xVal n v 0 r i (List.mem_range.mp hi),
      if_neg (not_lt.mpr (hr i))]
  rw [hx, if_neg ?hne]
  case hne =>
    intro hcon
    have h0 := (hv i).1
    rw [hcon] at h0
    norm_num [na_value] at h0

theorem trueSum_p_one (n : Nat) (v : Nat → Int) (r : Nat → ℚ)
    (hr : ∀ i, r i < 1) : trueSum (mk_input n v 1 r) = 0 := by
  unfold trueSum
  apply List.sum_eq_zero
  intro x hx
  rw [List.mem_map] at hx
  obtain ⟨i, hi, hxe⟩ := hx
  rw [mk_input_n] at hi
  have hna : xVal (mk_input n v 1 r) i = na_value := by
    rw [mk_input_xVal n v 1 r i (List.mem_range.mp hi), if_pos (hr i)]
  rw [← hxe, if_pos hna]

/-! ### Concrete fixtures used by witness theorems -/

/-- A small concrete well-formed dataset (`n = 11`, not a multiple of 8,
three nulls; valid values sum to 130). -/
def dEx : input_data :=
  ⟨11, [3, na_value, 5, 7, na_value, 2, 0, 100, 9, na_value, 4], [237, 253]⟩

/-- A concrete value-draw stream within the generator contract `[0, 100]`. -/
def vEx : Nat → Int := fun _ => 7

/-- A concrete real-draw stream within the contract `[0, 1)`: even indices
draw 0 (marked null whenever `p > 0`), odd indices draw `1/2`. -/
def rEx : Nat → ℚ := fun i => if i % 2 = 0 then 0 else 1/2

/-! ### The claims -/

/-- C1: on every dataset produced by the generator (values in `[0,100]`,
nulls marked by the sentinel and, consistently, a cleared validity bit —
the `wf` invariant), every null-aware kernel (`sum_sentinel_nulls_if`,
`sum_sentinel_nulls_mul`, `sum_sentinel_nulls_batched`, `sum_bitmask_nulls`,
`sum_bitmask_nulls_batched`, `sum_bitmask_nulls_shortcut`, and the three
parallel variants), run once from a zero accumulator, returns the same
value: the sum of `data[i]` over the indices whose null-pattern is false. -/
theorem C1_cross_kernel_agreement (d : input_data) (hd : wf d)
    (nth : Nat) (h1 : 1 ≤ nth) :
    sum_sentinel_nulls_if_once d 0 = trueSum d ∧
    sum_sentinel_nulls_mul_once d 0 = trueSum d ∧
    sum_sentinel_nulls_batched_once d 0 = trueSum d ∧
    sum_bitmask_nulls_once d 0 = trueSum d ∧
    sum_bitmask_nulls_batched_once d 0 = trueSum d ∧
    sum_bitmask_nulls_shortcut_once d 0 = trueSum d ∧
    sum_sentinel_nulls_omp1_once d nth 0 = trueSum d ∧
    sum_sentinel_nulls_omp2_once d 0 = trueSum d ∧
    sum_bitmask_nulls_omp2_once d 0 = trueSum d :=
  null_aware_kernels_trueSum d hd nth h1

/-- Witness for C1 at the concrete dataset `dEx` and 2 workers. -/
theorem C1_cross_kernel_agreement_witness :
    wf dEx ∧ 1 ≤ 2 ∧
    (sum_sentinel_nulls_if_once dEx 0 = trueSum dEx ∧
     sum_sentinel_nulls_mul_once dEx 0 = trueSum dEx ∧
     sum_sentinel_nulls_batched_once dEx 0 = trueSum dEx ∧
     sum_bitmask_nulls_once dEx 0 = trueSum dEx ∧
     sum_bitmask_nulls_batched_once dEx 0 = trueSum dEx ∧
     sum_bitmask_nulls_shortcut_once dEx 0 = trueSum dEx ∧
     sum_sentinel_nulls_omp1_once dEx 2 0 = trueSum dEx ∧
     sum_sentinel_nulls_omp2_once dEx 0 = trueSum dEx ∧
     sum_bitmask_nulls_omp2_once dEx 0 = trueSum dEx) :=
  ⟨by decide, by norm_num,
    C1_cross_kernel_agreement dEx (by decide) 2 (by norm_num)⟩

/-- C3: for every dataset, one invocation of `sum_bitmask_nulls_shortcut`
equals `sum_bitmask_nulls_batched`: a batch whose validity byte is `0xFF`
adds all eight elements, which equals the per-bit branchless batch, and any
other byte takes the identical fallback. -/
theorem C3_shortcut_eq_batched (d : input_data) (t : Int) :
    sum_bitmask_nulls_shortcut_once d t = sum_bitmask_nulls_batched_once d t :=
  sum_bitmask_nulls_shortcut_once_eq d t

/-- C4: for every dataset, worker count `nth ≥ 1`, and round-robin stride
partition of `[0, n)`, the per-stride private branchless sentinel subtotals
sum to the sequential branchless sentinel sum under any merge order (any
permutation `l` of the subtotal list), so one invocation of
`sum_sentinel_nulls_omp1` equals `sum_sentinel_nulls_mul`. -/
theorem C4_omp1_any_merge_order (d : input_data) (t : Int) (nth : Nat)
    (h1 : 1 ≤ nth) (l : List Int)
    (hl : l.Perm ((List.range nth).map (fun ith => omp1_subtotal d ith nth))) :
    l.foldl (fun a s => a + s) t = sum_sentinel_nulls_mul_once d t ∧
    sum_sentinel_nulls_omp1_once d nth t = sum_sentinel_nulls_mul_once d t := by
  have h2 := sum_sentinel_nulls_omp1_once_eq d nth h1 t
  constructor
  · rw [foldl_plus_eq, hl.sum_eq,
      ← foldl_plus_eq ((List.range nth).map (fun ith => omp1_subtotal d ith nth)) t]
    exact h2
  · exact h2

/-- Witness for C4: `dEx`, 3 workers, the merge order reversed. -/
theorem C4_omp1_any_merge_order_witness :
    1 ≤ 3 ∧
    (((List.range 3).map (fun ith => omp1_subtotal dEx ith 3)).reverse).Perm
      ((List.range 3).map (fun ith => omp1_subtotal dEx ith 3)) ∧
    ((((List.range 3).map (fun ith => omp1_subtotal dEx ith 3)).reverse).foldl
        (fun a s => a + s) 5 = sum_sentinel_nulls_mul_once dEx 5 ∧
     sum_sentinel_nulls_omp1_once dEx 3 5 = sum_sentinel_nulls_mul_once dEx 5) :=
  ⟨by norm_num, by decide,
    C4_omp1_any_merge_order dEx 5 3 (by norm_num)
      (((List.range 3).map (fun ith => omp1_subtotal dEx ith 3)).reverse)
      (by decide)⟩

/-- C5: with `p = 0`, `fill_nas` marks no index null (data untouched, every
validity bit stays 1) and every kernel — including the unconditional
`sum_ignore_nulls` — returns the same value (the true sum); with `p = 1`,
`fill_nas` marks every index null and every null-aware kernel returns 0. -/
theorem C5_degenerate_probabilities (n : Nat) (v : Nat → Int) (r : Nat → ℚ)
    (hv : ∀ i, 0 ≤ v i ∧ v i ≤ 100) (hr : ∀ i, 0 ≤ r i ∧ r i < 1)
    (nth : Nat) (h1 : 1 ≤ nth) :
    ((mk_input n v 0 r).data = generate n v ∧
     (mk_input n v 0 r).namask = List.replicate ((n + 7) / 8) 255 ∧
     sum_ignore_nulls_once (mk_input n v 0 r) 0 = trueSum (mk_input n v 0 r) ∧
     sum_ignore_nulls_batched_once (mk_input n v 0 r) 0
        = trueSum (mk_input n v 0 r) ∧
     sum_sentinel_nulls_if_once (mk_input n v 0 r) 0
        = trueSum (mk_input n v 0 r) ∧
     sum_sentinel_nulls_mul_once (mk_input n v 0 r) 0
        = trueSum (mk_input n v 0 r) ∧
     sum_sentinel_nulls_batched_once (mk_input n v 0 r) 0
        = trueSum (mk_input n v 0 r) ∧
     sum_bitmask_nulls_once (mk_input n v 0 r) 0
        = trueSum (mk_input n v 0 r) ∧
     sum_bitmask_nulls_batched_once (mk_input n v 0 r) 0
        = trueSum (mk_input n v 0 r) ∧
     sum_bitmask_nulls_shortcut_once (mk_input n v 0 r) 0
        = trueSum (mk_input n v 0 r) ∧
     sum_sentinel_nulls_omp1_once (mk_input n v 0 r) nth 0
        = trueSum (mk_input n v 0 r) ∧
     sum_sentinel_nulls_omp2_once (mk_input n v 0 r) 0
        = trueSum (mk_input n v 0 r) ∧
     sum_bitmask_nulls_omp2_once (mk_input n v 0 r) 0
        = trueSum (mk_input n v 0 r)) ∧
    ((∀ i < n, xVal (mk_input n v 1 r) i = na_value ∧
        validBit (mk_input n v 1 r) i = 0) ∧
     sum_sentinel_nulls_if_once (mk_input n v 1 r) 0 = 0 ∧
     sum_sentinel_nulls_mul_once (mk_input n v 1 r) 0 = 0 ∧
     sum_sentinel_nulls_batched_once (mk_input n v 1 r) 0 = 0 ∧
     sum_bitmask_nulls_once (mk_input n v 1 r) 0 = 0 ∧
     sum_bitmask_nulls_batched_once (mk_input n v 1 r) 0 = 0 ∧
     sum_bitmask_nulls_shortcut_once (mk_input n v 1 r) 0 = 0 ∧
     sum_sentinel_nulls_omp1_once (mk_input n v 1 r) nth 0 = 0 ∧
     sum_sentinel_nulls_omp2_once (mk_input n v 1 r) 0 = 0 ∧
     sum_bitmask_nulls_omp2_once (mk_input n v 1 r) 0 = 0) := by
  have hr0 : ∀ i, 0 ≤ r i := fun i => (hr i).1
  have hr1 : ∀ i, r i < 1 := fun i => (hr i).2
  constructor
  · have heq := mk_input_p_zero n v r hr0
    have h9 := null_aware_kernels_trueSum _ (wf_mk_input n v 0 r hv) nth h1
    have hts := trueSum_p_zero n v r hv hr0
    have hfit0 : ∀ k < (mk_input n v 0 r).n / 8,
        -(2 ^ 31) ≤ xVal (mk_input n v 0 r) (8*k)
            + xVal (mk_input n v 0 r) (8*k+1) + xVal (mk_input n v 0 r) (8*k+2)
            + xVal (mk_input n v 0 r) (8*k+3) + xVal (mk_input n v 0 r) (8*k+4)
            + xVal (mk_input n v 0 r) (8*k+5) + xVal (mk_input n v 0 r) (8*k+6)
            + xVal (mk_input n v 0 r) (8*k+7) ∧
          xVal (mk_input n v 0 r) (8*k)
            + xVal (mk_input n v 0 r) (8*k+1) + xVal (mk_input n v 0 r) (8*k+2)
            + xVal (mk_input n v 0 r) (8*k+3) + xVal (mk_input n v 0 r) (8*k+4)
            + xVal (mk_input n v 0 r) (8*k+5) + xVal (mk_input n v 0 r) (8*k+6)
            + xVal (mk_input n v 0 r) (8*k+7) < 2 ^ 31 := by
      intro k hk
      rw [mk_input_n] at hk
      have hb : ∀ j, j < 8 → 0 ≤ xVal (mk_input n v 0 r) (8*k+j)
          ∧ xVal (mk_input n v 0 r) (8*k+j) ≤ 100 := by
        intro j hj
        have hlt : 8*k+j < n := by omega
        rw [mk_input_xVal n v 0 r _ hlt, if_neg (not_lt.mpr (hr0 _))]
        exact hv _
      have hb0 := hb 0 (by norm_num)
      have hb1 := hb 1 (by norm_num)
      have hb2 := hb 2 (by norm_num)
      have hb3 := hb 3 (by norm_num)
      have hb4 := hb 4 (by norm_num)
      have hb5 := hb 5 (by norm_num)
      have hb6 := hb 6 (by norm_num)
      have hb7 := hb 7 (by norm_num)
      norm_num at hb0
      constructor <;> omega
    refine ⟨by rw [heq], by rw [heq], ?_, ?_, h9⟩
    · rw [sum_ignore_nulls_once_eq, zero_add, mk_input_n, ← hts]
    · rw [sum_ignore_nulls_batched_once_eq _ _ hfit0, sum_ignore_nulls_once_eq,
        zero_add, mk_input_n, ← hts]
  · have h9 := null_aware_kernels_trueSum _ (wf_mk_input n v 1 r hv) nth h1
    rw [trueSum_p_one n v r hr1] at h9
    refine ⟨?_, h9⟩
    intro i hi
    exact ⟨by rw [mk_input_xVal n v 1 r i hi, if_pos (hr1 i)],
           by rw [mk_input_validBit n v 1 r i hi, if_pos (hr1 i)]⟩

/-- Witness for C5 at `n = 3`, the concrete streams `vEx`/`rEx`, 2 workers. -/
theorem C5_degenerate_probabilities_witness :
    (∀ i, 0 ≤ vEx i ∧ vEx i ≤ 100) ∧ (∀ i, 0 ≤ rEx i ∧ rEx i < 1) ∧ 1 ≤ 2 ∧
    (((mk_input 3 vEx 0 rEx).data = generate 3 vEx ∧
     (mk_input 3 vEx 0 rEx).namask = List.replicate ((3 + 7) / 8) 255 ∧
     sum_ignore_nulls_once (mk_input 3 vEx 0 rEx) 0
        = trueSum (mk_input 3 vEx 0 rEx) ∧
     sum_ignore_nulls_batched_once (mk_input 3 vEx 0 rEx) 0
        = trueSum (mk_input 3 vEx 0 rEx) ∧
     sum_sentinel_nulls_if_once (mk_input 3 vEx 0 rEx) 0
        = trueSum (mk_input 3 vEx 0 rEx) ∧
     sum_sentinel_nulls_mul_once (mk_input 3 vEx 0 rEx) 0
        = trueSum (mk_input 3 vEx 0 rEx) ∧
     sum_sentinel_nulls_batched_once (mk_input 3 vEx 0 rEx) 0
        = trueSum (mk_input 3 vEx 0 rEx) ∧
     sum_bitmask_nulls_once (mk_input 3 vEx 0 rEx) 0
        = trueSum (mk_input 3 vEx 0 rEx) ∧
     sum_bitmask_nulls_batched_once (mk_input 3 vEx 0 rEx) 0
        = trueSum (mk_input 3 vEx 0 rEx) ∧
     sum_bitmask_nulls_shortcut_once (mk_input 3 vEx 0 rEx) 0
        = trueSum (mk_input 3 vEx 0 rEx) ∧
     sum_sentinel_nulls_omp1_once (mk_input 3 vEx 0 rEx) 2 0
        = trueSum (mk_input 3 vEx 0 rEx) ∧
     sum_sentinel_nulls_omp2_once (mk_input 3 vEx 0 rEx) 0
        = trueSum (mk_input 3 vEx 0 rEx) ∧
     sum_bitmask_nulls_omp2_once (mk_input 3 vEx 0 rEx) 0
        = trueSum (mk_input 3 vEx 0 rEx)) ∧
    ((∀ i < 3, xVal (mk_input 3 vEx 1 rEx) i = na_value ∧
        validBit (mk_input 3 vEx 1 rEx) i = 0) ∧
     sum_sentinel_nulls_if_once (mk_input 3 vEx 1 rEx) 0 = 0 ∧
     sum_sentinel_nulls_mul_once (mk_input 3 vEx 1 rEx) 0 = 0 ∧
     sum_sentinel_nulls_batched_once (mk_input 3 vEx 1 rEx) 0 = 0 ∧
     sum_bitmask_nulls_once (mk_input 3 vEx 1 rEx) 0 = 0 ∧
     sum_bitmask_nulls_batched_once (mk_input 3 vEx 1 rEx) 0 = 0 ∧
     sum_bitmask_nulls_shortcut_once (mk_input 3 vEx 1 rEx) 0 = 0 ∧
     sum_sentinel_nulls_omp1_once (mk_input 3 vEx 1 rEx) 2 0 = 0 ∧
     sum_sentinel_nulls_omp2_once (mk_input 3 vEx 1 rEx) 0 = 0 ∧
     sum_bitmask_nulls_omp2_once (mk_input 3 vEx 1 rEx) 0 = 0)) :=
  have hv : ∀ i, 0 ≤ vEx i ∧ vEx i ≤ 100 := fun i => by norm_num [vEx]
  have hr : ∀ i, 0 ≤ rEx i ∧ rEx i < 1 := fun i => by
    unfold rEx
    by_cases h : i % 2 = 0 <;> simp [h] <;> norm_num
  ⟨hv, hr, by norm_num, C5_degenerate_probabilities 3 vEx rEx hv hr 2 (by norm_num)⟩

/-- C6: `total` starts at 0 at construction, is never reset between
iterations, and `task::run` invokes `run_once` exactly `n_iterations = 100`
times; hence after `task::run` a null-aware kernel's final total is 100
times the true sum of the dataset. -/
theorem C6_task_run_accumulates (d : input_data) (hd : wf d) (nth : Nat)
    (h1 : 1 ≤ nth) :
    n_iterations = 100 ∧ task_init_total = 0 ∧
    task_run sum_sentinel_nulls_if_once d task_init_total = 100 * trueSum d ∧
    task_run sum_sentinel_nulls_mul_once d task_init_total = 100 * trueSum d ∧
    task_run sum_sentinel_nulls_batched_once d task_init_total
      = 100 * trueSum d ∧
    task_run sum_bitmask_nulls_once d task_init_total = 100 * trueSum d ∧
    task_run sum_bitmask_nulls_batched_once d task_init_total
      = 100 * trueSum d ∧
    task_run sum_bitmask_nulls_shortcut_once d task_init_total
      = 100 * trueSum d ∧
    task_run (fun dd t => sum_sentinel_nulls_omp1_once dd nth t) d
      task_init_total = 100 * trueSum d ∧
    task_run sum_sentinel_nulls_omp2_once d task_init_total
      = 100 * trueSum d ∧
    task_run sum_bitmask_nulls_omp2_once d task_init_total
      = 100 * trueSum d := by
  have hta : ∀ step : input_data → Int → Int,
      (∀ t, step d t = t + trueSum d) →
      task_run step d task_init_total = 100 * trueSum d := by
    intro step hstep
    rw [task_run_affine step d (trueSum d) hstep task_init_total]
    norm_num [task_init_total, n_iterations]
  refine ⟨rfl, rfl, hta _ ?_, hta _ ?_, hta _ ?_, hta _ ?_, hta _ ?_,
    hta _ ?_, hta _ ?_, hta _ ?_, hta _ ?_⟩
  · exact fun t => sum_sentinel_nulls_if_once_eq d t
  · exact fun t => sum_sentinel_nulls_mul_once_eq d t
  · exact fun t => by
      rw [sum_sentinel_nulls_batched_once_eq, sum_sentinel_nulls_mul_once_eq]
  · exact fun t => sum_bitmask_nulls_once_trueSum d hd t
  · exact fun t => by
      rw [sum_bitmask_nulls_batched_once_eq,
        sum_bitmask_nulls_once_trueSum d hd]
  · exact fun t => by
      rw [sum_bitmask_nulls_shortcut_once_eq, sum_bitmask_nulls_batched_once_eq,
        sum_bitmask_nulls_once_trueSum d hd]
  · exact fun t => by
      rw [sum_sentinel_nulls_omp1_once_eq d nth h1,
        sum_sentinel_nulls_mul_once_eq]
  · exact fun t => by
      rw [sum_sentinel_nulls_omp2_once_eq, sum_sentinel_nulls_mul_once_eq]
  · exact fun t => by
      rw [sum_bitmask_nulls_omp2_once_eq, sum_bitmask_nulls_batched_once_eq,
        sum_bitmask_nulls_once_trueSum d hd]

/-- Witness for C6 at the concrete dataset `dEx` and 2 workers. -/
theorem C6_task_run_accumulates_witness :
    wf dEx ∧ 1 ≤ 2 ∧
    (n_iterations = 100 ∧ task_init_total = 0 ∧
     task_run sum_sentinel_nulls_if_once dEx task_init_total
        = 100 * trueSum dEx ∧
     task_run sum_sentinel_nulls_mul_once dEx task_init_total
        = 100 * trueSum dEx ∧
     task_run sum_sentinel_nulls_batched_once dEx task_init_total
        = 100 * trueSum dEx ∧
     task_run sum_bitmask_nulls_once dEx task_init_total
        = 100 * trueSum dEx ∧
     task_run sum_bitmask_nulls_batched_once dEx task_init_total
        = 100 * trueSum dEx ∧
     task_run sum_bitmask_nulls_shortcut_once dEx task_init_total
        = 100 * trueSum dEx ∧
     task_run (fun dd t => sum_sentinel_nulls_omp1_once dd 2 t) dEx
        task_init_total = 100 * trueSum dEx ∧
     task_run sum_sentinel_nulls_omp2_once dEx task_init_total
        = 100 * trueSum dEx ∧
     task_run sum_bitmask_nulls_omp2_once dEx task_init_total
        = 100 * trueSum dEx) :=
  ⟨by decide, by norm_num,
    C6_task_run_accumulates dEx (by decide) 2 (by norm_num)⟩

/-- Value-draw stream for the C7 scenario: constant 1 (within `[0,100]`). -/
def vC7 : Nat → Int := fun _ => 1

/-- Real-draw stream for the C7 scenario: constant 0 (within `[0,1)`); every
draw is below `p = 1/2`, so every index is marked null. -/
def rC7 : Nat → ℚ := fun _ => 0

/-- The C7 scenario dataset: `n = 16`, `p = 1/2`, with an admissible seeded
generator under which every index is null. -/
def dC7 : input_data := mk_input 16 vC7 (1/2) rC7

/-- C7 counterexample: with `n = 16`, `p = 1/2` and an admissible generator,
not all kernel variants return an identical sum — the unconditional
`sum_ignore_nulls` (one of the benchmark's variants) disagrees with the
null-aware `sum_sentinel_nulls_if` as soon as any index is marked null, so
the claim's "all 10 kernel variants return an identical sum" fails. -/
theorem C7_scenario_counterexample :
    sum_ignore_nulls_once dC7 0 ≠ sum_sentinel_nulls_if_once dC7 0 := by
  have hlt : ∀ i : Nat, rC7 i < 1/2 := fun i => by norm_num [rC7]
  have hx : ∀ i, i < 16 → xVal dC7 i = na_value := by
    intro i hi
    show xVal (mk_input 16 vC7 (1/2) rC7) i = na_value
    rw [mk_input_xVal 16 vC7 (1/2) rC7 i hi, if_pos (hlt i)]
  have hn : dC7.n = 16 := rfl
  have hignore : sum_ignore_nulls_once dC7 0 = 16 * na_value := by
    rw [sum_ignore_nulls_once_eq, zero_add, hn]
    have hm : (List.range 16).map (fun i => xVal dC7 i)
        = (List.range 16).map (fun _ => na_value) :=
      List.map_congr_left (fun i hi => hx i (List.mem_range.mp hi))
    rw [hm]
    decide
  have hts : trueSum dC7 = 0 := by
    apply List.sum_eq_zero
    intro x hxmem
    rw [List.mem_map] at hxmem
    obtain ⟨i, hi, hxe⟩ := hxmem
    rw [← hxe, if_pos (hx i (List.mem_range.mp hi))]
  have hif : sum_sentinel_nulls_if_once dC7 0 = 0 := by
    rw [sum_sentinel_nulls_if_once_eq, zero_add, hts]
  rw [hignore, hif]
  norm_num [na_value]

/-- C7 (amended): for `n = 16`, `p = 1/2` and any admissible seeded
generator, the count of null-marked indices is reproducible across repeated
generation with the same seed (same draw streams), and the nine null-aware
kernel variants return an identical sum; the unconditional variants are
excluded, as they disagree whenever a null is drawn. -/
theorem C7_scenario_agreement (v : Nat → Int) (r : Nat → ℚ)
    (hv : ∀ i, 0 ≤ v i ∧ v i ≤ 100) (d1 d2 : input_data)
    (e1 : d1 = mk_input 16 v (1/2) r) (e2 : d2 = mk_input 16 v (1/2) r)
    (nth : Nat) (h1 : 1 ≤ nth) :
    nullCount d1 = nullCount d2 ∧
    (sum_sentinel_nulls_if_once d1 0 = trueSum d1 ∧
     sum_sentinel_nulls_mul_once d1 0 = trueSum d1 ∧
     sum_sentinel_nulls_batched_once d1 0 = trueSum d1 ∧
     sum_bitmask_nulls_once d1 0 = trueSum d1 ∧
     sum_bitmask_nulls_batched_once d1 0 = trueSum d1 ∧
     sum_bitmask_nulls_shortcut_once d1 0 = trueSum d1 ∧
     sum_sentinel_nulls_omp1_once d1 nth 0 = trueSum d1 ∧
     sum_sentinel_nulls_omp2_once d1 0 = trueSum d1 ∧
     sum_bitmask_nulls_omp2_once d1 0 = trueSum d1) := by
  subst e1
  subst e2
  exact ⟨rfl,
    null_aware_kernels_trueSum _ (wf_mk_input 16 v (1/2) r hv) nth h1⟩

/-- Witness for the amended C7 at the concrete streams `vEx`/`rEx`. -/
theorem C7_scenario_agreement_witness :
    (∀ i, 0 ≤ vEx i ∧ vEx i ≤ 100) ∧
    mk_input 16 vEx (1/2) rEx = mk_input 16 vEx (1/2) rEx ∧ 1 ≤ 2 ∧
    (nullCount (mk_input 16 vEx (1/2) rEx)
        = nullCount (mk_input 16 vEx (1/2) rEx) ∧
     (sum_sentinel_nulls_if_once (mk_input 16 vEx (1/2) rEx) 0
        = trueSum (mk_input 16 vEx (1/2) rEx) ∧
      sum_sentinel_nulls_mul_once (mk_input 16 vEx (1/2) rEx) 0
        = trueSum (mk_input 16 vEx (1/2) rEx) ∧
      sum_sentinel_nulls_batched_once (mk_input 16 vEx (1/2) rEx) 0
        = trueSum (mk_input 16 vEx (1/2) rEx) ∧
      sum_bitmask_nulls_once (mk_input 16 vEx (1/2) rEx) 0
        = trueSum (mk_input 16 vEx (1/2) rEx) ∧
      sum_bitmask_nulls_batched_once (mk_input 16 vEx (1/2) rEx) 0
        = trueSum (mk_input 16 vEx (1/2) rEx) ∧
      sum_bitmask_nulls_shortcut_once (mk_input 16 vEx (1/2) rEx) 0
        = trueSum (mk_input 16 vEx (1/2) rEx) ∧
      sum_sentinel_nulls_omp1_once (mk_input 16 vEx (1/2) rEx) 2 0
        = trueSum (mk_input 16 vEx (1/2) rEx) ∧
      sum_sentinel_nulls_omp2_once (mk_input 16 vEx (1/2) rEx) 0
        = trueSum (mk_input 16 vEx (1/2) rEx) ∧
      sum_bitmask_nulls_omp2_once (mk_input 16 vEx (1/2) rEx) 0
        = trueSum (mk_input 16 vEx (1/2) rEx))) :=
  have hv : ∀ i, 0 ≤ vEx i ∧ vEx i ≤ 100 := fun i => by norm_num [vEx]
  ⟨hv, rfl, by norm_num,
    C7_scenario_agreement vEx rEx hv _ _ rfl rfl 2 (by norm_num)⟩

/-- C8: the bits beyond position `n-1` of the bitmap's last byte are never
read: for `n` not a multiple of 8, any two validity bitmaps that agree on
bits `0..n-1` (as the kernels read them) give identical results in every
bitmap kernel, whatever the don't-care bits hold. -/
theorem C8_padding_bits_never_read (n : Nat) (dat : List Int)
    (m1 m2 : List Nat) (t : Int) (hn8 : n % 8 ≠ 0)
    (hagree : ∀ i < n,
      (m1.getD (i / 8) 0 >>> (i % 8)) &&& 1
        = (m2.getD (i / 8) 0 >>> (i % 8)) &&& 1) :
    sum_bitmask_nulls_once ⟨n, dat, m1⟩ t
      = sum_bitmask_nulls_once ⟨n, dat, m2⟩ t ∧
    sum_bitmask_nulls_batched_once ⟨n, dat, m1⟩ t
      = sum_bitmask_nulls_batched_once ⟨n, dat, m2⟩ t ∧
    sum_bitmask_nulls_shortcut_once ⟨n, dat, m1⟩ t
      = sum_bitmask_nulls_shortcut_once ⟨n, dat, m2⟩ t ∧
    sum_bitmask_nulls_omp2_once ⟨n, dat, m1⟩ t
      = sum_bitmask_nulls_omp2_once ⟨n, dat, m2⟩ t := by
  have hper : sum_bitmask_nulls_once ⟨n, dat, m1⟩ t
      = sum_bitmask_nulls_once ⟨n, dat, m2⟩ t := by
    rw [sum_bitmask_nulls_once_eq, sum_bitmask_nulls_once_eq]
    congr 1
    apply congrArg List.sum
    apply List.map_congr_left
    intro i hi
    have hb : validBit ⟨n, dat, m1⟩ i = validBit ⟨n, dat, m2⟩ i := by
      unfold validBit
      exact congrArg (fun x : Nat => (x : Int))
        (hagree i (List.mem_range.mp hi))
    rw [show xVal ⟨n, dat, m1⟩ i = xVal ⟨n, dat, m2⟩ i from rfl, hb]
  have hbat : sum_bitmask_nulls_batched_once ⟨n, dat, m1⟩ t
      = sum_bitmask_nulls_batched_once ⟨n, dat, m2⟩ t := by
    rw [sum_bitmask_nulls_batched_once_eq, sum_bitmask_nulls_batched_once_eq]
    exact hper
  refine ⟨hper, hbat, ?_, ?_⟩
  · rw [sum_bitmask_nulls_shortcut_once_eq, sum_bitmask_nulls_shortcut_once_eq]
    exact hbat
  · rw [sum_bitmask_nulls_omp2_once_eq, sum_bitmask_nulls_omp2_once_eq]
    exact hbat

/-- Witness for C8: `n = 3`, masks `[251]` and `[3]` agree on bits 0..2 and
differ on every padding bit of the last byte. -/
theorem C8_padding_bits_never_read_witness :
    3 % 8 ≠ 0 ∧
    (∀ i < 3, (([251] : List Nat).getD (i / 8) 0 >>> (i % 8)) &&& 1
        = (([3] : List Nat).getD (i / 8) 0 >>> (i % 8)) &&& 1) ∧
    (sum_bitmask_nulls_once ⟨3, [1, 2, 3], [251]⟩ 4
        = sum_bitmask_nulls_once ⟨3, [1, 2, 3], [3]⟩ 4 ∧
     sum_bitmask_nulls_batched_once ⟨3, [1, 2, 3], [251]⟩ 4
        = sum_bitmask_nulls_batched_once ⟨3, [1, 2, 3], [3]⟩ 4 ∧
     sum_bitmask_nulls_shortcut_once ⟨3, [1, 2, 3], [251]⟩ 4
        = sum_bitmask_nulls_shortcut_once ⟨3, [1, 2, 3], [3]⟩ 4 ∧
     sum_bitmask_nulls_omp2_once ⟨3, [1, 2, 3], [251]⟩ 4
        = sum_bitmask_nulls_omp2_once ⟨3, [1, 2, 3], [3]⟩ 4) :=
  ⟨by norm_num, by decide,
    C8_padding_bits_never_read 3 [1, 2, 3] [251] [3] 4 (by norm_num)
      (by decide)⟩

/-- C9: dataset generation is a deterministic function of the seed and the
parameters: two runs of `generate` + `fill_nas` with identical seeded draw
streams, `n` and `p` produce identical data arrays, identical bitmaps, and
identical outputs from every kernel. -/
theorem C9_determinism (n : Nat) (v : Nat → Int) (p : ℚ) (r : Nat → ℚ)
    (d1 d2 : input_data) (e1 : d1 = mk_input n v p r)
    (e2 : d2 = mk_input n v p r) (nth : Nat) :
    d1.data = d2.data ∧ d1.namask = d2.namask ∧
    sum_ignore_nulls_once d1 0 = sum_ignore_nulls_once d2 0 ∧
    sum_ignore_nulls_batched_once d1 0 = sum_ignore_nulls_batched_once d2 0 ∧
    sum_sentinel_nulls_if_once d1 0 = sum_sentinel_nulls_if_once d2 0 ∧
    sum_sentinel_nulls_mul_once d1 0 = sum_sentinel_nulls_mul_once d2 0 ∧
    sum_sentinel_nulls_batched_once d1 0
      = sum_sentinel_nulls_batched_once d2 0 ∧
    sum_bitmask_nulls_once d1 0 = sum_bitmask_nulls_once d2 0 ∧
    sum_bitmask_nulls_batched_once d1 0 = sum_bitmask_nulls_batched_once d2 0 ∧
    sum_bitmask_nulls_shortcut_once d1 0
      = sum_bitmask_nulls_shortcut_once d2 0 ∧
    sum_sentinel_nulls_omp1_once d1 nth 0
      = sum_sentinel_nulls_omp1_once d2 nth 0 ∧
    sum_sentinel_nulls_omp2_once d1 0 = sum_sentinel_nulls_omp2_once d2 0 ∧
    sum_bitmask_nulls_omp2_once d1 0 = sum_bitmask_nulls_omp2_once d2 0 := by
  subst e1
  subst e2
  exact ⟨rfl, rfl, rfl, rfl, rfl, rfl, rfl, rfl, rfl, rfl, rfl, rfl, rfl⟩

/-- Witness for C9 at `n = 5`, streams `vEx`/`rEx`, `p = 1/2`, 2 workers. -/
theorem C9_determinism_witness :
    mk_input 5 vEx (1/2) rEx = mk_input 5 vEx (1/2) rEx ∧
    ((mk_input 5 vEx (1/2) rEx).data = (mk_input 5 vEx (1/2) rEx).data ∧
     (mk_input 5 vEx (1/2) rEx).namask = (mk_input 5 vEx (1/2) rEx).namask ∧
     sum_ignore_nulls_once (mk_input 5 vEx (1/2) rEx) 0
        = sum_ignore_nulls_once (mk_input 5 vEx (1/2) rEx) 0 ∧
     sum_ignore_nulls_batched_once (mk_input 5 vEx (1/2) rEx) 0
        = sum_ignore_nulls_batched_once (mk_input 5 vEx (1/2) rEx) 0 ∧
     sum_sentinel_nulls_if_once (mk_input 5 vEx (1/2) rEx) 0
        = sum_sentinel_nulls_if_once (mk_input 5 vEx (1/2) rEx) 0 ∧
     sum_sentinel_nulls_mul_once (mk_input 5 vEx (1/2) rEx) 0
        = sum_sentinel_nulls_mul_once (mk_input 5 vEx (1/2) rEx) 0 ∧
     sum_sentinel_nulls_batched_once (mk_input 5 vEx (1/2) rEx) 0
        = sum_sentinel_nulls_batched_once (mk_input 5 vEx (1/2) rEx) 0 ∧
     sum_bitmask_nulls_once (mk_input 5 vEx (1/2) rEx) 0
        = sum_bitmask_nulls_once (mk_input 5 vEx (1/2) rEx) 0 ∧
     sum_bitmask_nulls_batched_once (mk_input 5 vEx (1/2) rEx) 0
        = sum_bitmask_nulls_batched_once (mk_input 5 vEx (1/2) rEx) 0 ∧
     sum_bitmask_nulls_shortcut_once (mk_input 5 vEx (1/2) rEx) 0
        = sum_bitmask_nulls_shortcut_once (mk_input 5 vEx (1/2) rEx) 0 ∧
     sum_sentinel_nulls_omp1_once (mk_input 5 vEx (1/2) rEx) 2 0
        = sum_sentinel_nulls_omp1_once (mk_input 5 vEx (1/2) rEx) 2 0 ∧
     sum_sentinel_nulls_omp2_once (mk_input 5 vEx (1/2) rEx) 0
        = sum_sentinel_nulls_omp2_once (mk_input 5 vEx (1/2) rEx) 0 ∧
     sum_bitmask_nulls_omp2_once (mk_input 5 vEx (1/2) rEx) 0
        = sum_bitmask_nulls_omp2_once (mk_input 5 vEx (1/2) rEx) 0) :=
  ⟨rfl, C9_determinism 5 vEx (1/2) rEx _ _ rfl rfl 2⟩

/-- C10: after `generate(seed)` then `fill_nas(p, seed)` the dataset
invariant holds: `namask` has `(n+7)/8` bytes; for `i < n` bit `i mod 8` of
byte `i div 8` is 0 exactly when `data[i]` is the sentinel; every entry with
its bit set lies in `[0, 100]` (in particular no non-null value equals the
sentinel), so the sentinel and bitmap encodings describe the identical null
pattern — the full well-formedness `wf` holds by construction. -/
theorem C10_generator_invariant (n : Nat) (v : Nat → Int) (p : ℚ)
    (r : Nat → ℚ) (hv : ∀ i, 0 ≤ v i ∧ v i ≤ 100) :
    (mk_input n v p r).namask.length = (n + 7) / 8 ∧
    (∀ i < n, (validBit (mk_input n v p r) i = 0
      ↔ xVal (mk_input n v p r) i = na_value)) ∧
    (∀ i < n, validBit (mk_input n v p r) i = 1
      → 0 ≤ xVal (mk_input n v p r) i ∧ xVal (mk_input n v p r) i ≤ 100) ∧
    wf (mk_input n v p r) := by
  have hwf := wf_mk_input n v p r hv
  obtain ⟨-, hlen, -, hbit, hrange⟩ := hwf
  refine ⟨hlen, fun i hi => hbit i hi, fun i hi h1 => ?_,
    wf_mk_input n v p r hv⟩
  apply hrange i hi
  intro hna
  rw [(hbit i hi).mpr hna] at h1
  norm_num at h1

/-- Witness for C10 at `n = 3`, streams `vEx`/`rEx`, `p = 1/2`. -/
theorem C10_generator_invariant_witness :
    (∀ i, 0 ≤ vEx i ∧ vEx i ≤ 100) ∧
    ((mk_input 3 vEx (1/2) rEx).namask.length = (3 + 7) / 8 ∧
     (∀ i < 3, (validBit (mk_input 3 vEx (1/2) rEx) i = 0
        ↔ xVal (mk_input 3 vEx (1/2) rEx) i = na_value)) ∧
     (∀ i < 3, validBit (mk_input 3 vEx (1/2) rEx) i = 1
        → 0 ≤ xVal (mk_input 3 vEx (1/2) rEx) i
          ∧ xVal (mk_input 3 vEx (1/2) rEx) i ≤ 100) ∧
     wf (mk_input 3 vEx (1/2) rEx)) :=
  have hv : ∀ i, 0 ≤ vEx i ∧ vEx i ≤ 100 := fun i => by norm_num [vEx]
  ⟨hv, C10_generator_invariant 3 vEx (1/2) rEx hv⟩
